import Mathlib

/-!
# Verification of the cosdata hierarchical-index core

A shallow embedding, in Lean 4, of the core of the `cosdata` vector
database: the quantized `Storage` serializer
(`src/models/serializer/storage.rs`), the Euclidean distance kernels
(`src/distance/euclidean.rs`), and the bit-packed cosine kernels and
NSW-style proximity-graph operations (`src/vector_store.rs`).

Conventions of the embedding:

* Machine integers are `Nat`/`Int` with explicit `% 2^w` at the points
  where the Rust code truncates or wraps (`as u32` casts, `u32` shifts,
  `i16` multiplication).
* A buffer file is a `List Nat` of bytes; the buffer-manager factory is a
  function `Nat → List Nat` from version hashes to buffers.  A cursor sits
  at the end of its buffer (the serializer appends), and `deserialize`'s
  seek-to-offset is `List.drop offset`.
* `f32`/`f16` fields that the serializer merely moves as bytes
  (`mag : f32`, `quant_vec : Vec<f16>`) are carried as their little-endian
  bit patterns (`Nat` below `2^32` / `2^16`); the serializer never
  inspects their numeric value.
* Rust `f32` arithmetic whose numeric value matters is modelled exactly
  over `Int`/`ℚ` at the points where IEEE evaluation is exact, with the
  inexact remainder (square roots, final divisions) stated over `ℝ` in
  the theorems themselves.
* Fallible reads return `Option`/`Except`; a read past the end of a
  buffer is an IO error, as in the buffered-IO layer.
-/

namespace Cosdata

/-! ## Byte-level primitives shared by the serializer -/

/-- Little-endian byte encoding of a `u32` write
(`write_u32_with_cursor`); also the byte image of `write_f32_with_cursor`
applied to an `f32` carried as its 32-bit pattern.  The `% 256` per byte
realises the 32-bit truncation of the `as u32` casts in the source
(`quant_vec.len() as u32`). -/
def u32LE (n : Nat) : List Nat :=
  [n % 256, n / 256 % 256, n / 256 ^ 2 % 256, n / 256 ^ 3 % 256]

/-- Little-endian byte encoding of an `f16` written via `to_le_bytes`,
the value carried as its 16-bit pattern. -/
def u16LE (n : Nat) : List Nat :=
  [n % 256, n / 256 % 256]

/-- Read one byte (`read_u8_with_cursor`); `none` is an IO error at end
of file. -/
def rdU8 : List Nat → Option (Nat × List Nat)
  | [] => none
  | b :: r => some (b, r)

/-- Read a little-endian `u32` (`read_u32_with_cursor`), also used for the
4 bytes of `read_f32_with_cursor` with the `f32` carried as its bit
pattern. -/
def rdU32 : List Nat → Option (Nat × List Nat)
  | b0 :: b1 :: b2 :: b3 :: r => some (b0 + 256 * b1 + 256 ^ 2 * b2 + 256 ^ 3 * b3, r)
  | _ => none

/-- Read `n` bytes one at a time (the `for _ in 0..len` u8 loops of
`Storage::deserialize`). -/
def rdBytes : Nat → List Nat → Option (List Nat × List Nat)
  | 0, l => some ([], l)
  | _ + 1, [] => none
  | n + 1, b :: r => (rdBytes n r).map fun p => (b :: p.1, p.2)

/-- Read `n` little-endian `u16` values (the `f16::from_le_bytes` loop of
the `HalfPrecisionFP` arm). -/
def rdU16s : Nat → List Nat → Option (List Nat × List Nat)
  | 0, l => some ([], l)
  | n + 1, b0 :: b1 :: r => (rdU16s n r).map fun p => ((b0 + 256 * b1) :: p.1, p.2)
  | _ + 1, _ => none

/-- Read `n` length-prefixed inner byte vectors (the nested loop of the
`SubByte` arm: each `u32 inner_len` followed by `inner_len × u8`). -/
def rdSubVecs : Nat → List Nat → Option (List (List Nat) × List Nat)
  | 0, l => some ([], l)
  | n + 1, l =>
    (rdU32 l).bind fun p =>
      (rdBytes p.1 p.2).bind fun q =>
        (rdSubVecs n q.2).map fun s => (q.1 :: s.1, s.2)

/-! ## Storage (`src/storage/mod.rs` data model, serializer in
`src/models/serializer/storage.rs`) -/

/-- The tagged union of quantized vector payloads.  `mag` of
`UnsignedByte` is a `u32`; `mag` of `SubByte`/`HalfPrecisionFP` is an
`f32` carried as its 32-bit pattern, and `HalfPrecisionFP` elements are
`f16` bit patterns, since the serializer only moves their bytes.  Field
order of `SubByte` follows the Rust declaration
`{ mag, quant_vec, resolution }`. -/
inductive Storage where
  | UnsignedByte (mag : Nat) (quant_vec : List Nat)
  | SubByte (mag : Nat) (quant_vec : List (List Nat)) (resolution : Nat)
  | HalfPrecisionFP (mag : Nat) (quant_vec : List Nat)
deriving DecidableEq

/-- The record bytes `Storage::serialize` appends for each variant:
discriminator byte, then the fields in source order. -/
def storageBytes : Storage → List Nat
  | .UnsignedByte mag qv =>
      0 :: (u32LE mag ++ u32LE qv.length ++ qv)
  | .SubByte mag qv res =>
      1 :: res :: (u32LE mag ++ u32LE qv.length ++
        (qv.map fun v => u32LE v.length ++ v).flatten)
  | .HalfPrecisionFP mag qv =>
      2 :: (u32LE mag ++ u32LE qv.length ++ (qv.map u16LE).flatten)

/-- `CustomSerialize::serialize` for `Storage`: fetch the buffer of
`version` from the factory, record the cursor position (the buffer
length: the cursor sits at the end of the append-style buffer)
truncated by the `cursor_position(cursor)? as u32` cast of the source
(`% 2^32`), write the record, and return `(start, updated factory)`. -/
def serialize (bufmans : Nat → List Nat) (version : Nat) (s : Storage) :
    Nat × (Nat → List Nat) :=
  ((bufmans version).length % 2 ^ 32,
    fun v => if v = version then bufmans version ++ storageBytes s else bufmans v)

/-- `FileIndex` (`src/models/lazy_load.rs`): the persistent pointer,
either `Invalid` or a `(offset, version)` pair. -/
inductive FileIndex where
  | invalid
  | valid (offset : Nat) (version : Nat)
deriving DecidableEq

/-- The error kinds `Storage::deserialize` can surface:
`io::ErrorKind::InvalidInput` for `FileIndex::Invalid`,
`io::ErrorKind::InvalidData` for an unknown discriminator, and any
buffered-IO failure. -/
inductive DeserializeError where
  | invalidInput
  | invalidData
  | ioError
deriving DecidableEq

/-- Field reads of the `UnsignedByte` arm of `Storage::deserialize`:
`u32 mag`, `u32 len`, `len × u8`.  Inside a recognised arm the only
failures are buffered-IO errors, so the body is an `Option`. -/
def parseUnsignedByte (r : List Nat) : Option Storage :=
  (rdU32 r).bind fun p =>
    (rdU32 p.2).bind fun q =>
      (rdBytes q.1 q.2).map fun b => .UnsignedByte p.1 b.1

/-- Field reads of the `SubByte` arm: `u8 resolution`, `f32 mag` (bit
pattern), `u32 outer_len`, then the length-prefixed inner vectors. -/
def parseSubByte (r : List Nat) : Option Storage :=
  (rdU8 r).bind fun p =>
    (rdU32 p.2).bind fun q =>
      (rdU32 q.2).bind fun n =>
        (rdSubVecs n.1 n.2).map fun b => .SubByte q.1 b.1 p.1

/-- Field reads of the `HalfPrecisionFP` arm: `f32 mag` (bit pattern),
`u32 len`, `len × u16` (`f16` little-endian patterns). -/
def parseHalfPrecisionFP (r : List Nat) : Option Storage :=
  (rdU32 r).bind fun p =>
    (rdU32 p.2).bind fun q =>
      (rdU16s q.1 q.2).map fun b => .HalfPrecisionFP p.1 b.1

/-- The per-record body of `Storage::deserialize` after the seek: read
the discriminator, dispatch on `{0, 1, 2}` (any other value is
`InvalidData`), and surface a failed field read as an IO error. -/
def parseStorage (rest : List Nat) : Except DeserializeError Storage :=
  match rdU8 rest with
  | none => .error .ioError
  | some (tag, r1) =>
    match tag with
    | 0 =>
      match parseUnsignedByte r1 with
      | some s => .ok s
      | none => .error .ioError
    | 1 =>
      match parseSubByte r1 with
      | some s => .ok s
      | none => .error .ioError
    | 2 =>
      match parseHalfPrecisionFP r1 with
      | some s => .ok s
      | none => .error .ioError
    | _ => .error .invalidData

/-- `CustomSerialize::deserialize` for `Storage`: `InvalidInput` on
`FileIndex::Invalid`; otherwise fetch the version's buffer, seek to the
offset (`List.drop`), and parse one record. -/
def deserialize (bufmans : Nat → List Nat) (fi : FileIndex) :
    Except DeserializeError Storage :=
  match fi with
  | .invalid => .error .invalidInput
  | .valid offset version => parseStorage ((bufmans version).drop offset)

/-- Whether every field of a `Storage` value lies within its Rust type:
`u32` magnitudes and bit patterns below `2^32`, bytes below `2^8`, `f16`
patterns below `2^16` — and every vector length below `2^32`, the range
the on-disk `u32` length prefix can express. -/
def storageWF : Storage → Bool
  | .UnsignedByte mag qv =>
      decide (mag < 2 ^ 32) && decide (qv.length < 2 ^ 32) && qv.all (· < 256)
  | .SubByte mag qv res =>
      decide (mag < 2 ^ 32) && decide (res < 256) && decide (qv.length < 2 ^ 32) &&
        qv.all fun v => decide (v.length < 2 ^ 32) && v.all (· < 256)
  | .HalfPrecisionFP mag qv =>
      decide (mag < 2 ^ 32) && decide (qv.length < 2 ^ 32) && qv.all (· < 2 ^ 16)

/-! ## Reader/writer inversion lemmas -/

theorem rdU32_u32LE (n : Nat) (r : List Nat) (h : n < 2 ^ 32) :
    rdU32 (u32LE n ++ r) = some (n, r) := by
  simp [u32LE, rdU32]
  omega

/-- Without a range bound, the written length prefix reads back modulo
`2^32` — the effect of the `as u32` cast in `Storage::serialize`. -/
theorem rdU32_u32LE_mod (n : Nat) (r : List Nat) :
    rdU32 (u32LE n ++ r) = some (n % 2 ^ 32, r) := by
  simp [u32LE, rdU32]
  omega

theorem rdBytes_append (l r : List Nat) :
    rdBytes l.length (l ++ r) = some (l, r) := by
  induction l with
  | nil => rfl
  | cons b t ih => simp [rdBytes, ih]

theorem rdU16s_append (l r : List Nat) (h : ∀ x ∈ l, x < 2 ^ 16) :
    rdU16s l.length ((l.map u16LE).flatten ++ r) = some (l, r) := by
  induction l with
  | nil => rfl
  | cons b t ih =>
    have hb : b < 2 ^ 16 := h b (by simp)
    have ht : ∀ x ∈ t, x < 2 ^ 16 := fun x hx => h x (by simp [hx])
    have hbeq : b % 256 + 256 * (b / 256 % 256) = b := by omega
    simp only [List.map_cons, List.flatten_cons, List.length_cons, List.append_assoc, u16LE]
    simp only [List.cons_append, List.nil_append, rdU16s, Option.map_some, hbeq]
    simp [ih ht]

theorem rdSubVecs_append (l : List (List Nat)) (r : List Nat)
    (h : ∀ v ∈ l, v.length < 2 ^ 32) :
    rdSubVecs l.length ((l.map fun v => u32LE v.length ++ v).flatten ++ r) =
      some (l, r) := by
  induction l with
  | nil => rfl
  | cons v t ih =>
    have hv : v.length < 2 ^ 32 := h v (by simp)
    have ht : ∀ x ∈ t, x.length < 2 ^ 32 := fun x hx => h x (by simp [hx])
    simp only [List.map_cons, List.flatten_cons, List.length_cons, List.append_assoc]
    simp only [rdSubVecs, rdU32_u32LE _ _ hv, Option.some_bind]
    rw [← List.append_assoc]
    simp [rdBytes_append, ih ht]

/-- `parseStorage` on a record starting with discriminator 0 runs the
`UnsignedByte` arm. -/
theorem parseStorage_cons_zero (r1 : List Nat) :
    parseStorage (0 :: r1) =
      match parseUnsignedByte r1 with
      | some s => .ok s
      | none => .error .ioError := rfl

/-- `parseStorage` on a record starting with discriminator 1 runs the
`SubByte` arm. -/
theorem parseStorage_cons_one (r1 : List Nat) :
    parseStorage (1 :: r1) =
      match parseSubByte r1 with
      | some s => .ok s
      | none => .error .ioError := rfl

/-- `parseStorage` on a record starting with discriminator 2 runs the
`HalfPrecisionFP` arm. -/
theorem parseStorage_cons_two (r1 : List Nat) :
    parseStorage (2 :: r1) =
      match parseHalfPrecisionFP r1 with
      | some s => .ok s
      | none => .error .ioError := rfl

/-- Parsing the freshly written record (plus any trailing bytes) of a
well-formed `Storage` recovers the value. -/
theorem parseStorage_storageBytes (s : Storage) (r : List Nat)
    (h : storageWF s = true) :
    parseStorage (storageBytes s ++ r) = .ok s := by
  cases s with
  | UnsignedByte mag qv =>
    simp only [storageWF, Bool.and_eq_true, decide_eq_true_eq] at h
    obtain ⟨⟨hmag, hlen⟩, _⟩ := h
    simp only [storageBytes, List.cons_append, List.append_assoc]
    rw [parseStorage_cons_zero]
    simp only [parseUnsignedByte]
    rw [rdU32_u32LE _ _ hmag]
    simp only [Option.some_bind]
    rw [rdU32_u32LE _ _ hlen]
    simp only [Option.some_bind]
    rw [rdBytes_append]
    simp
  | SubByte mag qv res =>
    simp only [storageWF, Bool.and_eq_true, decide_eq_true_eq, List.all_eq_true] at h
    obtain ⟨⟨⟨hmag, _⟩, hlen⟩, hin⟩ := h
    have hin' : ∀ v ∈ qv, v.length < 2 ^ 32 := by
      intro v hv
      have := hin v hv
      simp only [Bool.and_eq_true, decide_eq_true_eq] at this
      exact this.1
    simp only [storageBytes, List.cons_append, List.append_assoc]
    rw [parseStorage_cons_one]
    simp only [parseSubByte, rdU8, Option.some_bind]
    rw [rdU32_u32LE _ _ hmag]
    simp only [Option.some_bind]
    rw [rdU32_u32LE _ _ hlen]
    simp only [Option.some_bind]
    rw [rdSubVecs_append _ _ hin']
    simp
  | HalfPrecisionFP mag qv =>
    simp only [storageWF, Bool.and_eq_true, decide_eq_true_eq, List.all_eq_true] at h
    obtain ⟨⟨hmag, hlen⟩, hin⟩ := h
    have hin' : ∀ x ∈ qv, x < 2 ^ 16 := by
      intro x hx
      simpa using hin x hx
    simp only [storageBytes, List.cons_append, List.append_assoc]
    rw [parseStorage_cons_two]
    simp only [parseHalfPrecisionFP]
    rw [rdU32_u32LE _ _ hmag]
    simp only [Option.some_bind]
    rw [rdU32_u32LE _ _ hlen]
    simp only [Option.some_bind]
    rw [rdU16s_append _ _ hin']
    simp

/-! ## Auxiliary facts about `parseStorage`'s error surface -/

/-- Any discriminator of 3 or more is rejected as `InvalidData`. -/
theorem parseStorage_cons_big (b : Nat) (r : List Nat) :
    parseStorage ((b + 3) :: r) = .error .invalidData := rfl

/-- The record body never produces `InvalidInput`: that error is reserved
for `FileIndex::Invalid`. -/
theorem parseStorage_ne_invalidInput (rest : List Nat) :
    parseStorage rest ≠ .error .invalidInput := by
  cases rest with
  | nil => simp [parseStorage, rdU8]
  | cons b r =>
    rcases b with _ | _ | _ | b
    · rw [parseStorage_cons_zero]
      cases parseUnsignedByte r <;> simp
    · rw [parseStorage_cons_one]
      cases parseSubByte r <;> simp
    · rw [parseStorage_cons_two]
      cases parseHalfPrecisionFP r <;> simp
    · rw [parseStorage_cons_big]
      simp

/-- The record body yields `InvalidData` exactly when the discriminator
byte at the seek position exists and is outside `{0, 1, 2}`. -/
theorem parseStorage_invalidData_iff (rest : List Nat) :
    parseStorage rest = .error .invalidData ↔
      ∃ t r, rest = t :: r ∧ ¬(t = 0 ∨ t = 1 ∨ t = 2) := by
  cases rest with
  | nil => simp [parseStorage, rdU8]
  | cons b r =>
    rcases b with _ | _ | _ | b
    · rw [parseStorage_cons_zero]
      cases parseUnsignedByte r <;> simp
    · rw [parseStorage_cons_one]
      cases parseSubByte r <;> simp
    · rw [parseStorage_cons_two]
      cases parseHalfPrecisionFP r <;> simp
    · rw [parseStorage_cons_big]
      exact ⟨fun _ => ⟨b + 3, r, rfl, by omega⟩, fun _ => rfl⟩

/-! ## Claim C1 — round-trip serialization -/

/-- Parsing an `UnsignedByte` record whose length prefix was truncated by
the `as u32` cast reads back only `len % 2^32` payload bytes. -/
theorem parse_unsignedbyte_record (mag : Nat) (qv : List Nat)
    (hmag : mag < 2 ^ 32) :
    parseStorage (storageBytes (.UnsignedByte mag qv)) =
      match rdBytes (qv.length % 2 ^ 32) qv with
      | some p => .ok (.UnsignedByte mag p.1)
      | none => .error .ioError := by
  simp only [storageBytes, List.append_assoc]
  rw [parseStorage_cons_zero]
  simp only [parseUnsignedByte]
  rw [rdU32_u32LE _ _ hmag]
  simp only [Option.some_bind]
  rw [rdU32_u32LE_mod]
  simp only [Option.some_bind]
  cases h : rdBytes (qv.length % 2 ^ 32) qv with
  | none => simp [h]
  | some p => simp [h]

/-- **C1, counterexample.** The claim quantifies over arbitrary field
contents, but `Storage::serialize` writes each vector length through a
`len as u32` cast.  For an `UnsignedByte` payload of `2^32` zero bytes
(a legitimate `Vec<u8>` on a 64-bit host) the recorded length wraps to
0, so deserializing from the returned offset yields an empty payload,
not the original value. -/
theorem storage_roundtrip_2pow32_fails :
    deserialize
        (serialize (fun _ => []) 0 (.UnsignedByte 0 (List.replicate (2 ^ 32) 0))).2
        (.valid (serialize (fun _ => []) 0
          (.UnsignedByte 0 (List.replicate (2 ^ 32) 0))).1 0) ≠
      .ok (.UnsignedByte 0 (List.replicate (2 ^ 32) 0)) := by
  have heval :
      deserialize
          (serialize (fun _ => []) 0 (.UnsignedByte 0 (List.replicate (2 ^ 32) 0))).2
          (.valid (serialize (fun _ => []) 0
            (.UnsignedByte 0 (List.replicate (2 ^ 32) 0))).1 0) =
        .ok (.UnsignedByte 0 []) := by
    simp only [serialize, deserialize, List.length_nil, Nat.zero_mod, if_pos,
      List.nil_append, List.drop_zero]
    rw [parse_unsignedbyte_record 0 _ (by norm_num)]
    rw [List.length_replicate, Nat.mod_self]
    rfl
  rw [heval]
  intro hcontra
  injection hcontra with h1
  injection h1 with hm hq
  have hlen := congrArg List.length hq
  rw [List.length_replicate, List.length_nil] at hlen
  exact absurd hlen (by norm_num)

/-- **C1, amended.**  For every `Storage` value whose fields are within
their declared Rust types and whose vector lengths fit the on-disk `u32`
length prefixes (`storageWF`), serializing into a buffer shorter than
`2^32` bytes — in particular the fresh buffer of the claim — and
deserializing from the returned offset yields the value back, field by
field.  (The buffer bound matches the `cursor_position as u32`
truncation of the returned offset: on a buffer of `2^32` bytes or more
the offset wraps and no longer points at the record.) -/
theorem storage_serialize_roundtrip (s : Storage) (bufmans : Nat → List Nat)
    (version : Nat) (h : storageWF s = true)
    (hbuf : (bufmans version).length < 2 ^ 32) :
    deserialize (serialize bufmans version s).2
      (.valid (serialize bufmans version s).1 version) = .ok s := by
  simp only [serialize, deserialize, if_pos]
  rw [Nat.mod_eq_of_lt hbuf, List.drop_left]
  have := parseStorage_storageBytes s [] h
  rwa [List.append_nil] at this

/-- Witness for C1 (amended): a concrete `SubByte` value round-trips
through a non-empty version-3 buffer. -/
theorem storage_serialize_roundtrip_witness :
    deserialize (serialize (fun _ => [9]) 3 (.SubByte 5 [[1], [2, 3]] 7)).2
      (.valid (serialize (fun _ => [9]) 3 (.SubByte 5 [[1], [2, 3]] 7)).1 3) =
      .ok (.SubByte 5 [[1], [2, 3]] 7) :=
  storage_serialize_roundtrip _ _ _ (by decide) (by decide)

/-! ## Claim C5 — deserialization error classification -/

/-- **C5.**  `Storage::deserialize` returns `InvalidInput` exactly on
`FileIndex::Invalid`; it returns `InvalidData` exactly when the
discriminator byte at the given offset exists and is outside `{0,1,2}`;
and in every case the outcome is a `Storage` value or one of the three
error kinds (the residual kind being a propagated IO error). -/
theorem deserialize_error_classification (bufmans : Nat → List Nat)
    (fi : FileIndex) :
    (deserialize bufmans fi = .error .invalidInput ↔ fi = .invalid) ∧
    (deserialize bufmans fi = .error .invalidData ↔
      ∃ off ver t r, fi = .valid off ver ∧
        (bufmans ver).drop off = t :: r ∧ ¬(t = 0 ∨ t = 1 ∨ t = 2)) ∧
    ((∃ s, deserialize bufmans fi = .ok s) ∨
      deserialize bufmans fi = .error .invalidInput ∨
      deserialize bufmans fi = .error .invalidData ∨
      deserialize bufmans fi = .error .ioError) := by
  cases fi with
  | invalid =>
    refine ⟨by simp [deserialize], ?_, by simp [deserialize]⟩
    simp [deserialize]
  | valid off ver =>
    refine ⟨?_, ?_, ?_⟩
    · simp only [deserialize]
      constructor
      · intro h
        exact absurd h (parseStorage_ne_invalidInput _)
      · intro h
        cases h
    · simp only [deserialize]
      rw [parseStorage_invalidData_iff]
      constructor
      · rintro ⟨t, r, hd, hne⟩
        exact ⟨off, ver, t, r, rfl, hd, hne⟩
      · rintro ⟨off', ver', t, r, heq, hd, hne⟩
        cases heq
        exact ⟨t, r, hd, hne⟩
    · rcases he : deserialize bufmans (.valid off ver) with e | v
      · cases e with
        | invalidInput => exact Or.inr (Or.inl rfl)
        | invalidData => exact Or.inr (Or.inr (Or.inl rfl))
        | ioError => exact Or.inr (Or.inr (Or.inr rfl))
      · exact Or.inl ⟨v, rfl⟩

/-! ## Claim C7 — concrete `UnsignedByte` record bytes -/

/-- **C7.**  Serializing `UnsignedByte { mag: 42, quant_vec: [1,2,3] }`
into a fresh buffer writes exactly the twelve bytes
`00 2A 00 00 00 03 00 00 00 01 02 03` and returns offset 0; and in
general — for any buffer shorter than `2^32` bytes, so that the
`cursor_position as u32` cast does not wrap the returned offset —
`serialize` returns the cursor position at which the record's bytes
start (the bytes from the returned offset onward are exactly the
record). -/
theorem serialize_unsignedbyte_concrete :
    ((serialize (fun _ => []) 0 (.UnsignedByte 42 [1, 2, 3])).1 = 0 ∧
      (serialize (fun _ => []) 0 (.UnsignedByte 42 [1, 2, 3])).2 0 =
        [0, 42, 0, 0, 0, 3, 0, 0, 0, 1, 2, 3]) ∧
    ∀ (bufmans : Nat → List Nat) (version : Nat) (s : Storage),
      (bufmans version).length < 2 ^ 32 →
      ((serialize bufmans version s).2 version).drop
          (serialize bufmans version s).1 = storageBytes s := by
  refine ⟨⟨rfl, rfl⟩, ?_⟩
  intro bufmans version s hbuf
  simp only [serialize, if_pos]
  rw [Nat.mod_eq_of_lt hbuf, List.drop_left]

/-- Witness for C7: a one-byte version-0 buffer; the record bytes of
`UnsignedByte { mag: 1, quant_vec: [2] }` start at the returned
offset. -/
theorem serialize_unsignedbyte_concrete_witness :
    ((serialize (fun _ => [5]) 0 (.UnsignedByte 1 [2])).2 0).drop
        (serialize (fun _ => [5]) 0 (.UnsignedByte 1 [2])).1 =
      storageBytes (.UnsignedByte 1 [2]) :=
  serialize_unsignedbyte_concrete.2 (fun _ => [5]) 0 (.UnsignedByte 1 [2])
    (by decide)

/-! ## Euclidean distance kernels (`src/distance/euclidean.rs`) -/

/-- Two's-complement wrap to the `i16` range: the behaviour of the
release-mode `i16` multiplication `diff * diff` in
`euclidean_distance_u8` (debug builds panic on the same overflow). -/
def i16wrap (z : Int) : Int := (z + 2 ^ 15) % 2 ^ 16 - 2 ^ 15

/-- The per-element terms of `euclidean_distance_u8`: promote each `u8`
to `i16`, subtract (exact, |diff| ≤ 255 fits `i16`), square *in `i16`*
(`let diff = (a as i16) - (b as i16); (diff * diff) as f32` — the
product wraps for |diff| ≥ 182), then cast to `f32` (exact: every `i16`
value is exactly representable).  Each term is the exact integer content
of the `f32` the code obtains. -/
def euclideanTermsU8 (x y : List Nat) : List Int :=
  List.zipWith
    (fun a b => i16wrap (((a : Int) - (b : Int)) * ((a : Int) - (b : Int)))) x y

/-- The value accumulated by the code's `.sum::<f32>()` before `sqrt`,
exact whenever the partial sums stay within the integer-exact `f32`
range `±2^24` (true at every input this file evaluates). -/
def euclideanSumsqU8 (x y : List Nat) : Int := (euclideanTermsU8 x y).sum

/-- The reference sum of the spec's kernel description ("promote to
signed 16-bit, square the difference as `f32`"): squared differences
taken exactly, with no 16-bit wraparound. -/
def euclideanSumsqExact (x y : List Nat) : Int :=
  (List.zipWith (fun a b => ((a : Int) - (b : Int)) ^ 2) x y).sum

/-- The error kinds of `DistanceError` reachable from
`EuclideanDistance::calculate`. -/
inductive DistanceError where
  | CalculationError
  | StorageMismatch
deriving DecidableEq

/-- The `Ok` payload of the embedded `calculate`.  The `u8` kernel's
pre-`sqrt` sum is carried exactly; the `f16` kernel is carried as the
argument vectors it was applied to, since no claim inspects its `f32`
value — only the `Ok`/error classification of `calculate` is at issue
(the final `sqrt` of either kernel cannot change that classification). -/
inductive EuclideanResult where
  | u8 (sumsq : Int)
  | f16 (x y : List Nat)
deriving DecidableEq

/-- `EuclideanDistance::calculate`: `UnsignedByte × UnsignedByte` and
`HalfPrecisionFP × HalfPrecisionFP` run their kernels,
`SubByte × SubByte` is unimplemented (`CalculationError`), and every
other pair is `StorageMismatch`. -/
def calculate (x y : Storage) : Except DistanceError EuclideanResult :=
  match x, y with
  | .UnsignedByte _ vx, .UnsignedByte _ vy => .ok (.u8 (euclideanSumsqU8 vx vy))
  | .HalfPrecisionFP _ vx, .HalfPrecisionFP _ vy => .ok (.f16 vx vy)
  | .SubByte _ _ _, .SubByte _ _ _ => .error .CalculationError
  | _, _ => .error .StorageMismatch

/-- Discriminator of a `Storage` variant (also its on-disk tag). -/
def variantTag : Storage → Nat
  | .UnsignedByte _ _ => 0
  | .SubByte _ _ _ => 1
  | .HalfPrecisionFP _ _ => 2

/-! ## Claim C3 — the `u8` Euclidean kernel squares in `i16` -/

/-- **C3.**  At `x = [255]`, `y = [0]` the code's term is the `i16`-
wrapped product `-511`, not the exact square `65025` the claim states:
the `f32` running sum becomes `-511.0` and its square root is NaN
instead of the claimed `255.0`. -/
theorem euclidean_u8_wraps_at_255 :
    euclideanSumsqU8 [255] [0] = -511 ∧
      euclideanSumsqExact [255] [0] = 65025 ∧
      euclideanSumsqU8 [255] [0] ≠ euclideanSumsqExact [255] [0] := by
  decide

/-! ## Claim C6 — `calculate` error classification -/

/-- **C6.**  `EuclideanDistance::calculate` returns `CalculationError`
exactly when both arguments are `SubByte`, `StorageMismatch` exactly
when the arguments are different variants, and `Ok` exactly when both
are `UnsignedByte` or both are `HalfPrecisionFP`. -/
theorem calculate_error_classification (x y : Storage) :
    (calculate x y = .error .CalculationError ↔
      variantTag x = 1 ∧ variantTag y = 1) ∧
    (calculate x y = .error .StorageMismatch ↔ variantTag x ≠ variantTag y) ∧
    ((∃ v, calculate x y = .ok v) ↔
      (variantTag x = 0 ∧ variantTag y = 0) ∨
        (variantTag x = 2 ∧ variantTag y = 2)) := by
  cases x <;> cases y <;> simp [calculate, variantTag]

/-! ## Bit-packed cosine kernels (`src/vector_store.rs`) -/

/-- Binary population count, the specification value for the popcount
LUT pipeline. -/
def popcount (n : Nat) : Nat :=
  if h : n = 0 then 0 else popcount (n / 2) + n % 2
decreasing_by exact Nat.div_lt_self (Nat.pos_of_ne_zero h) one_lt_two

theorem popcount_eq (n : Nat) : popcount n = popcount (n / 2) + n % 2 := by
  by_cases h : n = 0
  · subst h
    rw [popcount]
    simp [popcount]
  · rw [popcount, dif_neg h]

theorem popcount_zero : popcount 0 = 0 := by
  rw [popcount]
  simp

/-- Splitting off the low `k` bits splits the population count. -/
theorem popcount_add_pow2_mul (k a b : Nat) (ha : a < 2 ^ k) :
    popcount (a + 2 ^ k * b) = popcount a + popcount b := by
  induction k generalizing a with
  | zero =>
    have : a = 0 := by simpa using ha
    subst this
    simp [popcount_zero]
  | succ k ih =>
    have hp : 2 ^ (k + 1) * b = 2 * (2 ^ k * b) := by ring
    have h1 : (a + 2 ^ (k + 1) * b) / 2 = a / 2 + 2 ^ k * b := by omega
    have h2 : (a + 2 ^ (k + 1) * b) % 2 = a % 2 := by omega
    have h3 : a / 2 < 2 ^ k := by
      have : (2 : Nat) ^ (k + 1) = 2 * 2 ^ k := by ring
      omega
    calc popcount (a + 2 ^ (k + 1) * b)
        = popcount ((a + 2 ^ (k + 1) * b) / 2) + (a + 2 ^ (k + 1) * b) % 2 :=
          popcount_eq _
      _ = popcount (a / 2 + 2 ^ k * b) + a % 2 := by rw [h1, h2]
      _ = popcount (a / 2) + popcount b + a % 2 := by rw [ih _ h3]
      _ = popcount a + popcount b := by rw [popcount_eq a]; ring

/-- `x_function` (`vector_store.rs`): the 4-bit popcount lookup table,
`-1` on inputs above 15. -/
def x_function (value : Nat) : Int :=
  match value with
  | 0 => 0 | 1 => 1 | 2 => 1 | 3 => 2
  | 4 => 1 | 5 => 2 | 6 => 2 | 7 => 3
  | 8 => 1 | 9 => 2 | 10 => 2 | 11 => 3
  | 12 => 2 | 13 => 3 | 14 => 3 | 15 => 4
  | _ => -1

/-- `shift_and_accumulate`: sum the LUT over the four low nibbles
(`15 & (value >> 0/4/8/12)`) of a 32-bit word — bits 16–31 are never
inspected. -/
def shift_and_accumulate (value : Nat) : Int :=
  x_function (15 &&& (value >>> 0)) + x_function (15 &&& (value >>> 4)) +
    x_function (15 &&& (value >>> 8)) + x_function (15 &&& (value >>> 12))

theorem x_function_eq_popcount (n : Nat) (h : n < 16) :
    x_function n = popcount n := by
  have p0 : popcount 0 = 0 := popcount_zero
  have p1 : popcount 1 = 1 := by rw [popcount_eq]; norm_num [p0]
  have p2 : popcount 2 = 1 := by rw [popcount_eq]; norm_num [p1]
  have p3 : popcount 3 = 2 := by rw [popcount_eq]; norm_num [p1]
  have p4 : popcount 4 = 1 := by rw [popcount_eq]; norm_num [p2]
  have p5 : popcount 5 = 2 := by rw [popcount_eq]; norm_num [p2]
  have p6 : popcount 6 = 2 := by rw [popcount_eq]; norm_num [p3]
  have p7 : popcount 7 = 3 := by rw [popcount_eq]; norm_num [p3]
  have p8 : popcount 8 = 1 := by rw [popcount_eq]; norm_num [p4]
  have p9 : popcount 9 = 2 := by rw [popcount_eq]; norm_num [p4]
  have p10 : popcount 10 = 2 := by rw [popcount_eq]; norm_num [p5]
  have p11 : popcount 11 = 3 := by rw [popcount_eq]; norm_num [p5]
  have p12 : popcount 12 = 2 := by rw [popcount_eq]; norm_num [p6]
  have p13 : popcount 13 = 3 := by rw [popcount_eq]; norm_num [p6]
  have p14 : popcount 14 = 3 := by rw [popcount_eq]; norm_num [p7]
  have p15 : popcount 15 = 4 := by rw [popcount_eq]; norm_num [p7]
  interval_cases n <;> simp [x_function, p0, p1, p2, p3, p4, p5, p6, p7, p8, p9, p10, p11, p12, p13, p14, p15]

theorem and15_shift (v k : Nat) : 15 &&& (v >>> k) = v / 2 ^ k % 16 := by
  rw [Nat.shiftRight_eq_div_pow, Nat.and_comm]
  have : (15 : Nat) = 2 ^ 4 - 1 := by norm_num
  rw [this, Nat.and_pow_two_sub_one_eq_mod]

/-- `shift_and_accumulate` computes the population count of the low 16
bits only. -/
theorem shift_and_accumulate_eq_popcount (v : Nat) :
    shift_and_accumulate v = popcount (v % 2 ^ 16) := by
  have pop16 : ∀ a b : Nat, a < 16 → popcount (a + 16 * b) = popcount a + popcount b := by
    intro a b ha
    have := popcount_add_pow2_mul 4 a b (by simpa using ha)
    simpa using this
  have e : v % 2 ^ 16 =
      v % 16 + 16 * (v / 16 % 16 + 16 * (v / 256 % 16 + 16 * (v / 4096 % 16))) := by
    omega
  have h0 : (15 : Nat) &&& (v >>> 0) = v % 16 := by
    rw [and15_shift]
    norm_num
  have h4 : (15 : Nat) &&& (v >>> 4) = v / 16 % 16 := by
    rw [and15_shift]
    norm_num
  have h8 : (15 : Nat) &&& (v >>> 8) = v / 256 % 16 := by
    rw [and15_shift]
    norm_num
  have h12 : (15 : Nat) &&& (v >>> 12) = v / 4096 % 16 := by
    rw [and15_shift]
    norm_num
  rw [e, pop16 _ _ (Nat.mod_lt _ (by norm_num)),
    pop16 _ _ (Nat.mod_lt _ (by norm_num)), pop16 _ _ (Nat.mod_lt _ (by norm_num))]
  rw [shift_and_accumulate, h0, h4, h8, h12,
    x_function_eq_popcount _ (Nat.mod_lt _ (by norm_num)),
    x_function_eq_popcount _ (Nat.mod_lt _ (by norm_num)),
    x_function_eq_popcount _ (Nat.mod_lt _ (by norm_num)),
    x_function_eq_popcount _ (Nat.mod_lt _ (by norm_num))]
  push_cast
  ring

/-- The integer accumulation loop of `cosine_sim_unsigned`: per pair of
32-bit words, add `shift_and_accumulate` of `a & b`, `a`, `b` into the
three running `i32` sums (the sums stay far below `i32` range for any
realistic input; the final `f64` combine is not modelled here). -/
def cosineSimUnsignedAcc (x y : List Nat) : Int × Int × Int :=
  (x.zip y).foldl
    (fun acc p =>
      (acc.1 + shift_and_accumulate (p.1 &&& p.2),
        acc.2.1 + shift_and_accumulate p.1,
        acc.2.2 + shift_and_accumulate p.2))
    (0, 0, 0)

theorem cosineSimUnsignedAcc_foldl (l : List (Nat × Nat)) (a b c : Int) :
    l.foldl
      (fun acc p =>
        (acc.1 + shift_and_accumulate (p.1 &&& p.2),
          acc.2.1 + shift_and_accumulate p.1,
          acc.2.2 + shift_and_accumulate p.2))
      (a, b, c) =
      (a + (l.map fun p => ((popcount ((p.1 &&& p.2) % 2 ^ 16) : Nat) : Int)).sum,
        b + (l.map fun p => ((popcount (p.1 % 2 ^ 16) : Nat) : Int)).sum,
        c + (l.map fun p => ((popcount (p.2 % 2 ^ 16) : Nat) : Int)).sum) := by
  induction l generalizing a b c with
  | nil => simp
  | cons p t ih =>
    rw [List.foldl_cons, ih]
    simp only [List.map_cons, List.sum_cons, shift_and_accumulate_eq_popcount,
      Prod.mk.injEq]
    refine ⟨by ring, by ring, by ring⟩

/-! ## Claim C10 — `shift_and_accumulate` counts only the low 16 bits -/

/-- **C10.**  For every 32-bit word `v`, `shift_and_accumulate v` is the
population count of `v mod 2^16` (bits 16–31 are ignored); `x_function`
agrees with popcount on `0..=15`; and therefore the three running sums
of `cosine_sim_unsigned`, which feeds it full 32-bit words, count only
the lower half of each word. -/
theorem shift_and_accumulate_low16 :
    (∀ v : Nat, v < 2 ^ 32 → shift_and_accumulate v = popcount (v % 2 ^ 16)) ∧
    (∀ n : Nat, n < 16 → x_function n = popcount n) ∧
    (∀ x y : List Nat,
      cosineSimUnsignedAcc x y =
        (((x.zip y).map fun p => ((popcount ((p.1 &&& p.2) % 2 ^ 16) : Nat) : Int)).sum,
          ((x.zip y).map fun p => ((popcount (p.1 % 2 ^ 16) : Nat) : Int)).sum,
          ((x.zip y).map fun p => ((popcount (p.2 % 2 ^ 16) : Nat) : Int)).sum)) := by
  refine ⟨fun v _ => shift_and_accumulate_eq_popcount v,
    fun n h => x_function_eq_popcount n h, fun x y => ?_⟩
  rw [cosineSimUnsignedAcc, cosineSimUnsignedAcc_foldl]
  simp

/-- Witness for C10: the word `0x0001ABCD` has popcount 10 in its low 16
bits; the high bit set at position 16 is ignored. -/
theorem shift_and_accumulate_low16_witness :
    shift_and_accumulate 109517 = popcount (109517 % 2 ^ 16) :=
  shift_and_accumulate_low16.1 109517 (by norm_num)

/-- `to_float_flag` (`vector_store.rs`): 1 for non-negative inputs, 0
for negative ones.  Raw `f32` inputs are carried as `ℚ`; the `>= 0.0`
comparison is exact in IEEE and in `ℚ`. -/
def to_float_flag (x : Rat) : Int :=
  if 0 ≤ x then 1 else 0

/-- Greedy chunks of 16, final partial chunk kept — the accumulation
loop of `quantize` (`chunk.push`; push `chunk` on reaching 16 elements;
push the non-empty remainder at the end). -/
def chunks16 : List Int → List (List Int)
  | [] => []
  | a1 :: a2 :: a3 :: a4 :: a5 :: a6 :: a7 :: a8 ::
      a9 :: a10 :: a11 :: a12 :: a13 :: a14 :: a15 :: a16 :: rest =>
      [a1, a2, a3, a4, a5, a6, a7, a8, a9, a10, a11, a12, a13, a14, a15, a16] ::
        chunks16 rest
  | l => [l]

/-- `quantize`: map `to_float_flag` over the input and chunk into groups
of 16 sign bits. -/
def quantize (fins : List Rat) : List (List Int) :=
  chunks16 (fins.map to_float_flag)

/-- `bits_to_integer`: fold the first `size` bit flags MSB-first into a
`u32` (`result = (result << 1) | (bits[i] as u32)`).  The `u32` shift
discards bit 31 (`% 2^32`), and the `i32 → u32` cast is two's-complement
reinterpretation (`emod 2^32`).  An out-of-range index panics in Rust;
`getD _ 0` stands in for it — every call site passes `size` ≤ the chunk
length. -/
def bits_to_integer (bits : List Int) (size : Nat) : Nat :=
  (List.range size).foldl
    (fun r i => ((r <<< 1) % 2 ^ 32) ||| ((bits.getD i 0) % (2 ^ 32 : Int)).toNat) 0

/-- `CosResult`: the three running popcount sums (`i32` fields). -/
structure CosResult where
  dotprod : Int
  premag_a : Int
  premag_b : Int
deriving DecidableEq

/-- `compute_cosine_similarity`: pack both chunks, then popcount
`a & b`, `a`, `b` through `shift_and_accumulate`. -/
def compute_cosine_similarity (a b : List Int) (size : Nat) : CosResult :=
  { dotprod := shift_and_accumulate (bits_to_integer a size &&& bits_to_integer b size)
    premag_a := shift_and_accumulate (bits_to_integer a size)
    premag_b := shift_and_accumulate (bits_to_integer b size) }

/-- `sum_components`: componentwise sum of the per-chunk results (`i32`
additions; the counts are at most 16 per chunk, far below `i32`
range for the inputs considered here). -/
def sum_components (results : List CosResult) : CosResult :=
  results.foldl
    (fun acc r =>
      { dotprod := acc.dotprod + r.dotprod
        premag_a := acc.premag_a + r.premag_a
        premag_b := acc.premag_b + r.premag_b })
    ⟨0, 0, 0⟩

/-- The integer part of `cosine_coalesce`: per 16-bit chunk compute the
three popcount sums and add them up.  A length mismatch panics in the
source (`panic!`), modelled as `none`.  The final `f64` combine
`dot / (sqrt pa * sqrt pb)` is stated over `ℝ` in the theorems. -/
def cosineCoalesceParts (x y : List (List Int)) : Option CosResult :=
  if x.length = y.length then
    some (sum_components ((x.zip y).map fun p => compute_cosine_similarity p.1 p.2 16))
  else
    none

/-- The 16-float alternating-sign input `a = [+1, −1, +1, −1, …]` of the
spec's bit-packed cosine scenario. -/
def a16 : List Rat :=
  [1, -1, 1, -1, 1, -1, 1, -1, 1, -1, 1, -1, 1, -1, 1, -1]

/-- The all-ones input `b = [+1, +1, …]` of the same scenario. -/
def b16 : List Rat :=
  [1, 1, 1, 1, 1, 1, 1, 1, 1, 1, 1, 1, 1, 1, 1, 1]

/-! ## Claim C4 — the bit-packed cosine scenario -/

/-- **C4, counterexample.**  For the alternating/all-ones scenario the
chunk sums are `dot = 8`, `|a|² = 8`, `|b|² = 16` — the quantized `a`
has only 8 sign bits set, not the 16 the claim's `8 / √(16·16)`
presumes.  The `f64` combine is the correctly-rounded value of
`8 / (√8 · √16) = 1/√2 ≈ 0.7071`, which is not `0.5`: the exact real
value of the combine on these sums differs from `1/2`, and `0.5` (exactly
representable in `f64`) is nowhere near the rounding error of the
computed value. -/
theorem cosine_coalesce_alternating_not_half :
    cosineCoalesceParts (quantize a16) (quantize b16) = some ⟨8, 8, 16⟩ ∧
      (8 : ℝ) / (Real.sqrt 8 * Real.sqrt 16) ≠ 1 / 2 := by
  constructor
  · decide
  · have h16 : Real.sqrt 16 = 4 := by
      rw [show (16 : ℝ) = 4 ^ 2 by norm_num, Real.sqrt_sq (by norm_num)]
    have h8pos : (0 : ℝ) < Real.sqrt 8 := Real.sqrt_pos.mpr (by norm_num)
    have h8lt : Real.sqrt 8 < 4 := by
      have := Real.sqrt_lt' (x := 8) (y := 4) (by norm_num)
      exact this.mpr (by norm_num)
    rw [h16]
    intro h
    have h48 : Real.sqrt 8 * 4 = 16 := by
      field_simp at h
      linarith
    nlinarith

/-- **C4, amended.**  The scenario's chunk sums are `(8, 8, 16)` and the
real value of the final combine is `8 / (√8 · √16) = 1/√2`
(`≈ 0.7071`). -/
theorem cosine_coalesce_alternating_value :
    cosineCoalesceParts (quantize a16) (quantize b16) = some ⟨8, 8, 16⟩ ∧
      (8 : ℝ) / (Real.sqrt 8 * Real.sqrt 16) = 1 / Real.sqrt 2 := by
  constructor
  · decide
  · have h16 : Real.sqrt 16 = 4 := by
      rw [show (16 : ℝ) = 4 ^ 2 by norm_num, Real.sqrt_sq (by norm_num)]
    have h8 : Real.sqrt 8 = 2 * Real.sqrt 2 := by
      rw [show (8 : ℝ) = 2 ^ 2 * 2 by norm_num, Real.sqrt_mul (by positivity),
        Real.sqrt_sq (by norm_num)]
    have h2pos : (0 : ℝ) < Real.sqrt 2 := Real.sqrt_pos.mpr (by norm_num)
    have h2sq : Real.sqrt 2 ^ 2 = 2 := Real.sq_sqrt (by norm_num)
    rw [h16, h8]
    rw [div_eq_div_iff (by positivity) (by positivity)]
    nlinarith [h2sq]

/-! ## Proximity-graph layer (`src/vector_store.rs`)

The graph walk mutates a shared `DashMap` cache from concurrently
spawned tasks; per-key `alter`s are atomic and tasks on distinct keys
commute, so the embedding realises one serialization: a fold in list
order.  `f32` similarities are carried as `ℚ`, on which Rust's
`partial_cmp(..).unwrap()` on non-NaN floats is the value order (a NaN
similarity would panic the sort and is forbidden by the spec);
`cosine_similarity` itself — pure `f32` arithmetic whose value no shape
claim depends on — is abstracted as a function parameter `simf`. -/

/-- `VectorHash`: the opaque vector id (a byte string). -/
abbrev VectorHash := List Nat

/-- A neighbor entry `(id, cosine similarity)`. -/
abbrev NeighborEntry := VectorHash × Rat

/-- `VectorTreeNode`: payload vector plus neighbor list. -/
structure VectorTreeNode where
  vector_list : List Rat
  neighbors : List NeighborEntry
deriving DecidableEq

/-- The cache value `Option<(VectorTreeNode, Arc<()>)>`; the guard `Arc`
is carried as an opaque token identity. -/
abbrev CacheVal := Option (VectorTreeNode × Nat)

/-- A cache key `(level, id)`; `i8` levels carried as `Int`. -/
abbrev CacheKey := Int × VectorHash

/-- The `DashMap` cache: `none` = key absent, `some v` = key present
with stored value `v` (itself an `Option`, per the Rust value type). -/
def Cache := CacheKey → Option CacheVal

/-- `DashMap::insert`: unconditional put. -/
def dashInsert (c : Cache) (k : CacheKey) (v : CacheVal) : Cache :=
  fun q => if q = k then some v else c q

/-- `DashMap::alter`: atomically replace the value at `k`; an absent key
is left untouched. -/
def dashAlter (c : Cache) (k : CacheKey) (f : CacheVal → CacheVal) : Cache :=
  fun q => if q = k then (c q).map f else c q

/-- The comparator `|a, b| b.1.partial_cmp(&a.1).unwrap()`: descending
(non-strict) by similarity. -/
def simGE (a b : NeighborEntry) : Prop := b.2 ≤ a.2

instance : DecidableRel simGE := fun a b => inferInstanceAs (Decidable (b.2 ≤ a.2))

instance : IsTotal NeighborEntry simGE := ⟨fun a b => le_total b.2 a.2⟩

instance : IsTrans NeighborEntry simGE := ⟨fun _ _ _ hab hbc => le_trans hbc hab⟩

/-- The walk of `Vec::dedup_by(|a, b| a.0 == b.0)` after its first
element: drop each element whose id equals the previously retained
one. -/
def dedupAux (prev : NeighborEntry) : List NeighborEntry → List NeighborEntry
  | [] => []
  | b :: rest => if b.1 = prev.1 then dedupAux prev rest else b :: dedupAux b rest

/-- `Vec::dedup_by` keyed on the id: keep the first element of each
consecutive run of equal ids. -/
def dedupById : List NeighborEntry → List NeighborEntry
  | [] => []
  | a :: rest => a :: dedupAux a rest

/-- The neighbor-list update inside the `alter` closure of
`insert_node_create_edges`: append `(hs, cs)`, stable-sort descending by
similarity (insertion sort, like Rust's `sort_by`, is stable), dedup
consecutive equal ids, truncate to the fan-out `M = 2`. -/
def updatedNeighbors (old : List NeighborEntry) (hs : VectorHash) (cs : Rat) :
    List NeighborEntry :=
  (dedupById (List.insertionSort simGE (old ++ [(hs, cs)]))).take 2

/-- The closure passed to `alter` for a candidate `(nb, cs)`: an
existing node gets the updated neighbor list with payload and guard
untouched; a `None` entry is returned unchanged. -/
def neighborAlterFn (hs : VectorHash) (cs : Rat) : CacheVal → CacheVal
  | some (vthm, mv) =>
      some ({ vector_list := vthm.vector_list
              neighbors := updatedNeighbors vthm.neighbors hs cs }, mv)
  | none => none

/-- `insert_node_create_edges`: put the new node (payload `fvec`,
neighbors = the candidate list, a fresh guard token) and run the
per-candidate `alter`s. -/
def insert_node_create_edges (c : Cache) (fvec : List Rat) (hs : VectorHash)
    (nbs : List NeighborEntry) (cur_level : Int) : Cache :=
  nbs.foldl (fun acc p => dashAlter acc (cur_level, p.1) (neighborAlterFn hs p.2))
    (dashInsert c (cur_level, hs) (some (⟨fvec, nbs⟩, 0)))

/-- The `retain` with a `seen` set in `traverse_find_nearest`: keep the
first occurrence of each id. -/
def retainAux (seen : List VectorHash) : List NeighborEntry → List NeighborEntry
  | [] => []
  | p :: r => if p.1 ∈ seen then retainAux seen r else p :: retainAux (p.1 :: seen) r

/-- The shape invariant of the spec for a stored neighbor list, with
"strictly descending" weakened to non-increasing (ties possible):
sorted descending by similarity, pairwise-distinct ids, length at most
the fan-out `M = 2`. -/
def NbrOk (l : List NeighborEntry) : Prop :=
  l.Sorted simGE ∧ l.Pairwise (fun a b => a.1 ≠ b.1) ∧ l.length ≤ 2

/-- Strict descent by similarity, as claim C2 states it. -/
def StrictDesc (l : List NeighborEntry) : Prop :=
  l.Chain' fun a b => b.2 < a.2

instance (l : List NeighborEntry) : Decidable (StrictDesc l) :=
  inferInstanceAs (Decidable (l.Chain' _))

/-! ### Shape lemmas -/

theorem dedupAux_sublist (l : List NeighborEntry) :
    ∀ prev, List.Sublist (dedupAux prev l) l := by
  induction l with
  | nil => intro prev; simp [dedupAux]
  | cons b rest ih =>
    intro prev
    by_cases h : b.1 = prev.1
    · simp only [dedupAux, if_pos h]
      exact (ih prev).trans (List.sublist_cons_self b rest)
    · simp only [dedupAux, if_neg h]
      exact (ih b).cons₂ b

theorem dedupById_sublist (l : List NeighborEntry) :
    List.Sublist (dedupById l) l := by
  cases l with
  | nil => simp [dedupById]
  | cons a rest => exact (dedupAux_sublist rest a).cons₂ a

/-- After `dedup_by`, consecutive entries have distinct ids. -/
theorem chain_dedupAux (l : List NeighborEntry) :
    ∀ prev, List.Chain' (fun a b => a.1 ≠ b.1) (prev :: dedupAux prev l) := by
  induction l with
  | nil => intro prev; simp [dedupAux]
  | cons b rest ih =>
    intro prev
    by_cases h : b.1 = prev.1
    · simpa [dedupAux, if_pos h] using ih prev
    · simp only [dedupAux, if_neg h]
      exact List.Chain'.cons (fun hc => h hc.symm) (ih b)

/-- The first two elements of a consecutively-distinct list are
pairwise distinct. -/
theorem chain_take_two {R : NeighborEntry → NeighborEntry → Prop}
    (l : List NeighborEntry) (h : List.Chain' R l) : (l.take 2).Pairwise R := by
  match l with
  | [] => simp
  | [a] => simp
  | a :: b :: t =>
    rw [List.chain'_cons] at h
    simp [List.take, h.1]

/-- The amended shape holds for the `alter` closure's output on every
prior neighbor list and appended pair. -/
theorem NbrOk_updatedNeighbors (old : List NeighborEntry) (hs : VectorHash)
    (cs : Rat) : NbrOk (updatedNeighbors old hs cs) := by
  refine ⟨?_, ?_, ?_⟩
  · exact List.Pairwise.sublist
      ((List.take_sublist _ _).trans (dedupById_sublist _))
      (List.sorted_insertionSort _ _)
  · cases hd : dedupById (List.insertionSort simGE (old ++ [(hs, cs)])) with
    | nil => simp [updatedNeighbors, hd]
    | cons a rest =>
      have hchain : List.Chain' (fun a b => a.1 ≠ b.1) (a :: rest) := by
        cases hl : List.insertionSort simGE (old ++ [(hs, cs)]) with
        | nil => rw [hl] at hd; simp [dedupById] at hd
        | cons x xs =>
          rw [hl] at hd
          simp only [dedupById] at hd
          rw [← hd]
          exact chain_dedupAux xs x
      rw [updatedNeighbors, hd]
      exact chain_take_two _ hchain
  · exact List.length_take_le _ _

/-- Singleton candidate lists (the `z` fallback in `insert_embedding`)
satisfy the shape. -/
theorem NbrOk_singleton (p : NeighborEntry) : NbrOk [p] := by
  refine ⟨by simp, by simp, by simp⟩

theorem NbrOk_nil : NbrOk [] := ⟨by simp, by simp, by simp⟩

/-- `retainAux` keeps a subsequence whose ids avoid `seen` and are
pairwise distinct. -/
theorem retainAux_spec (l : List NeighborEntry) :
    ∀ seen, List.Sublist (retainAux seen l) l ∧
      (retainAux seen l).Pairwise (fun a b => a.1 ≠ b.1) ∧
      ∀ p ∈ retainAux seen l, p.1 ∉ seen := by
  induction l with
  | nil => intro seen; simp [retainAux]
  | cons p r ih =>
    intro seen
    by_cases h : p.1 ∈ seen
    · simp only [retainAux, if_pos h]
      obtain ⟨h1, h2, h3⟩ := ih seen
      exact ⟨h1.trans (List.sublist_cons_self p r), h2, h3⟩
    · simp only [retainAux, if_neg h]
      obtain ⟨h1, h2, h3⟩ := ih (p.1 :: seen)
      refine ⟨h1.cons₂ p, ?_, ?_⟩
      · rw [List.pairwise_cons]
        refine ⟨fun q hq => ?_, h2⟩
        have := h3 q hq
        simp only [List.mem_cons, not_or] at this
        exact fun hc => this.1 hc.symm
      · intro q hq
        rcases List.mem_cons.mp hq with rfl | hq'
        · exact h
        · have := h3 q hq'
          simp only [List.mem_cons, not_or] at this
          exact this.2

/-- The post-processing of `traverse_find_nearest_inner` — sort
descending, keep first occurrence per id, take `K_search = 2` — always
produces a shape-correct list. -/
theorem NbrOk_postprocess (w : List NeighborEntry) :
    NbrOk ((retainAux [] (List.insertionSort simGE w)).take 2) := by
  obtain ⟨hsub, hpw, _⟩ := retainAux_spec (List.insertionSort simGE w) []
  refine ⟨?_, ?_, ?_⟩
  · exact List.Pairwise.sublist ((List.take_sublist _ _).trans hsub)
      (List.sorted_insertionSort _ _)
  · exact List.Pairwise.sublist (List.take_sublist _ _) hpw
  · exact List.length_take_le _ _

/-! ## Claim C2 — counterexample to strict descent -/

/-- **C2, counterexample.**  Appending `([0], 1)` to the prior neighbor
list `[([1], 1)]` — a tie in similarity — produces
`[([1], 1), ([0], 1)]`, which is *not* strictly descending: `sort_by`
uses `partial_cmp`, which leaves equal similarities in place, and
`dedup_by` only removes equal *ids*. -/
theorem neighbor_update_tie_not_strict :
    updatedNeighbors [([1], 1)] [0] 1 = [([1], 1), ([0], 1)] ∧
      ¬ StrictDesc (updatedNeighbors [([1], 1)] [0] 1) := by
  have heval : updatedNeighbors [([1], 1)] [0] 1 = [([1], 1), ([0], 1)] := by
    norm_num [updatedNeighbors, List.insertionSort, List.orderedInsert,
      dedupById, dedupAux, simGE]
  refine ⟨heval, ?_⟩
  rw [heval]
  simp [StrictDesc]

/-! ### Traversal and insertion -/

/-- Post-processing of a traversal join: sort all collected entries
descending, keep the first occurrence of each id, truncate to
`K_search = 2`. -/
def traversePost (w : List NeighborEntry) : List NeighborEntry :=
  (retainAux [] (List.insertionSort simGE w)).take 2

theorem NbrOk_traversePost (w : List NeighborEntry) : NbrOk (traversePost w) :=
  NbrOk_postprocess w

/-- The per-neighbor walk of `traverse_find_nearest_inner`, the spawned
tasks realised sequentially in list order: skip `self` (`nb ≠ hs`
filter), skip neighbors already in the shared `visited` set (`skipm`,
threaded as a list), mark the neighbor visited, look it up in the cache,
compute `cs = simf(probe, neighbor payload)`; recurse into the
neighbor's own list with `hops + 1` while `hops < 4` (appending
`(nb, cs)` after the recursive, post-processed result), else return just
`(nb, cs)`; the two `eprintln!` "should not happen" cache-miss branches
contribute nothing.  Returns the concatenated per-neighbor results and
the updated visited set. -/
def traverseNbrs (simf : List Rat → List Rat → Rat) (c : Cache)
    (fvec : List Rat) (hs : VectorHash) (cur_level : Int) :
    List NeighborEntry → Int → List VectorHash →
      List NeighborEntry × List VectorHash
  | [], _, skipm => ([], skipm)
  | (nb, _) :: rest, hops, skipm =>
    if nb = hs then traverseNbrs simf c fvec hs cur_level rest hops skipm
    else if nb ∈ skipm then traverseNbrs simf c fvec hs cur_level rest hops skipm
    else
      match c (cur_level, nb) with
      | some (some (vthm, _)) =>
        let cs := simf fvec vthm.vector_list
        if _h : hops < 4 then
          let w := traverseNbrs simf c fvec hs cur_level vthm.neighbors (hops + 1)
            (nb :: skipm)
          let zr := traverseNbrs simf c fvec hs cur_level rest hops w.2
          (traversePost w.1 ++ [(nb, cs)] ++ zr.1, zr.2)
        else
          let zr := traverseNbrs simf c fvec hs cur_level rest hops (nb :: skipm)
          ((nb, cs) :: zr.1, zr.2)
      | _ => traverseNbrs simf c fvec hs cur_level rest hops (nb :: skipm)
termination_by nbrs hops _ => ((4 - hops).toNat, nbrs.length)
decreasing_by
  all_goals simp_wf
  all_goals first
    | exact Prod.Lex.left _ _ (by omega)
    | exact Prod.Lex.right _ (by omega)

/-- `traverse_find_nearest` / `traverse_find_nearest_inner`: walk the
node's neighbor list, then post-process the join. -/
def traverseInner (simf : List Rat → List Rat → Rat) (c : Cache)
    (vtm : VectorTreeNode) (fvec : List Rat) (hs : VectorHash)
    (hops : Int) (skipm : List VectorHash) (cur_level : Int) :
    List NeighborEntry × List VectorHash :=
  let w := traverseNbrs simf c fvec hs cur_level vtm.neighbors hops skipm
  (traversePost w.1, w.2)

theorem NbrOk_traverseInner (simf : List Rat → List Rat → Rat) (c : Cache)
    (vtm : VectorTreeNode) (fvec : List Rat) (hs : VectorHash)
    (hops : Int) (skipm : List VectorHash) (cur_level : Int) :
    NbrOk (traverseInner simf c vtm fvec hs hops skipm cur_level).1 :=
  NbrOk_traversePost _

/-- The fields of `VectorStore` the walk reads. -/
structure VectorStoreM where
  max_cache_level : Int
  database_name : String

/-- `VectorEmbedding`: raw probe vector plus content hash. -/
structure VectorEmbedding where
  raw_vec : List Rat
  hash_vec : VectorHash

/-- The candidate set `z` of `insert_embedding`: the traversal result
from the entry node, or, when empty, the singleton
`[(cur_entry, cosine(probe, entry payload))]`. -/
def candidateList (simf : List Rat → List Rat → Rat) (c : Cache)
    (vthm : VectorTreeNode) (emb : VectorEmbedding) (cur_entry : VectorHash)
    (cur_level : Int) : List NeighborEntry :=
  let z := (traverseInner simf c vthm emb.raw_vec emb.hash_vec 0 [] cur_level).1
  if z = [] then [(cur_entry, simf emb.raw_vec vthm.vector_list)] else z

theorem NbrOk_candidateList (simf : List Rat → List Rat → Rat) (c : Cache)
    (vthm : VectorTreeNode) (emb : VectorEmbedding) (cur_entry : VectorHash)
    (cur_level : Int) : NbrOk (candidateList simf c vthm emb cur_entry cur_level) := by
  rw [candidateList]
  split
  · exact NbrOk_singleton _
  · exact NbrOk_traverseInner _ _ _ _ _ _ _ _

/-- `insert_embedding`, fuel-indexed (`none` when the fuel bound on the
level recursion runs out): return at `cur_level = -1`; on a materialized
entry, traverse, recurse one level down from the best candidate
(`z[0]`, written `headD` — `z` is non-empty by the fallback), and, when
`cur_level ≤ max_insert_level`, run `insert_node_create_edges` with the
candidates after the recursion returns; on a `None` entry above
`max_cache_level`, load via `getdb` (`get_vector_from_db`, which the
source leaves `unimplemented!()`), traverse and create edges.  The
`eprintln!` "should not happen" branches return with the cache
unchanged. -/
def insertEmbeddingF (simf : List Rat → List Rat → Rat)
    (getdb : String → VectorHash → Option VectorTreeNode)
    (store : VectorStoreM) :
    Nat → Cache → VectorEmbedding → VectorHash → Int → Int → Option Cache
  | 0, _, _, _, _, _ => none
  | fuel + 1, c, emb, cur_entry, cur_level, max_insert_level =>
    if cur_level = -1 then some c
    else
      match c (cur_level, cur_entry) with
      | some (some (vthm, _)) =>
        match insertEmbeddingF simf getdb store fuel c emb
            ((candidateList simf c vthm emb cur_entry cur_level).headD ([], 0)).1
            (cur_level - 1) max_insert_level with
        | none => none
        | some c1 =>
          if cur_level ≤ max_insert_level then
            some (insert_node_create_edges c1 emb.raw_vec emb.hash_vec
              (candidateList simf c vthm emb cur_entry cur_level) cur_level)
          else
            some c1
      | some none =>
        if store.max_cache_level < cur_level then
          match getdb store.database_name cur_entry with
          | some vtm =>
            some (insert_node_create_edges c emb.raw_vec emb.hash_vec
              (traverseInner simf c vtm emb.raw_vec emb.hash_vec 0 [] cur_level).1
              cur_level)
          | none => some c
        else
          some c
      | none => some c

/-! ### The cache-wide shape invariant -/

/-- Every materialized node in the cache has a shape-correct neighbor
list. -/
def CacheInv (c : Cache) : Prop :=
  ∀ k n g, c k = some (some (n, g)) → NbrOk n.neighbors

theorem CacheInv_dashInsert (c : Cache) (k : CacheKey) (node : VectorTreeNode)
    (g : Nat) (hc : CacheInv c) (hn : NbrOk node.neighbors) :
    CacheInv (dashInsert c k (some (node, g))) := by
  intro q n g' hq
  simp only [dashInsert] at hq
  split at hq
  · cases hq
    exact hn
  · exact hc q n g' hq

theorem CacheInv_dashAlter (c : Cache) (k : CacheKey) (hs : VectorHash) (cs : Rat)
    (hc : CacheInv c) : CacheInv (dashAlter c k (neighborAlterFn hs cs)) := by
  intro q n g hq
  simp only [dashAlter] at hq
  split at hq
  · cases hck : c q with
    | none => rw [hck] at hq; cases hq
    | some v =>
      rw [hck] at hq
      cases v with
      | none =>
        rw [show Option.map (neighborAlterFn hs cs) (some none) = some none
          from rfl] at hq
        cases hq
      | some p =>
        obtain ⟨vthm, mv⟩ := p
        rw [show Option.map (neighborAlterFn hs cs) (some (some (vthm, mv))) =
            some (some (⟨vthm.vector_list, updatedNeighbors vthm.neighbors hs cs⟩,
              mv))
          from rfl] at hq
        cases hq
        exact NbrOk_updatedNeighbors _ _ _
  · exact hc q n g hq

theorem CacheInv_foldl_alter (nbs : List NeighborEntry) (hs : VectorHash)
    (lvl : Int) :
    ∀ c : Cache, CacheInv c →
      CacheInv (nbs.foldl
        (fun acc p => dashAlter acc (lvl, p.1) (neighborAlterFn hs p.2)) c) := by
  induction nbs with
  | nil => intro c hc; simpa using hc
  | cons p t ih =>
    intro c hc
    exact ih _ (CacheInv_dashAlter c (lvl, p.1) hs p.2 hc)

theorem CacheInv_insert_node_create_edges (c : Cache) (fvec : List Rat)
    (hs : VectorHash) (nbs : List NeighborEntry) (lvl : Int)
    (hc : CacheInv c) (hn : NbrOk nbs) :
    CacheInv (insert_node_create_edges c fvec hs nbs lvl) := by
  rw [insert_node_create_edges]
  exact CacheInv_foldl_alter nbs hs lvl _
    (CacheInv_dashInsert c (lvl, hs) ⟨fvec, nbs⟩ 0 hc hn)

theorem CacheInv_insertEmbeddingF (simf : List Rat → List Rat → Rat)
    (getdb : String → VectorHash → Option VectorTreeNode) (store : VectorStoreM) :
    ∀ (fuel : Nat) (c : Cache) (emb : VectorEmbedding) (entry : VectorHash)
      (lvl mil : Int) (cf : Cache),
      CacheInv c →
      insertEmbeddingF simf getdb store fuel c emb entry lvl mil = some cf →
      CacheInv cf := by
  intro fuel
  induction fuel with
  | zero =>
    intro c emb entry lvl mil cf _ h
    cases h
  | succ fuel ih =>
    intro c emb entry lvl mil cf hc h
    rw [insertEmbeddingF] at h
    by_cases h1 : lvl = -1
    · rw [if_pos h1] at h
      cases h
      exact hc
    · rw [if_neg h1] at h
      split at h
      · split at h
        · cases h
        · rename_i c1 heq2
          split at h
          · cases h
            exact CacheInv_insert_node_create_edges _ _ _ _ _
              (ih _ _ _ _ _ _ hc heq2) (NbrOk_candidateList _ _ _ _ _ _)
          · cases h
            exact ih _ _ _ _ _ _ hc heq2
      · split at h
        · split at h
          · cases h
            exact CacheInv_insert_node_create_edges _ _ _ _ _ hc
              (NbrOk_traverseInner _ _ _ _ _ _ _ _)
          · cases h
            exact hc
        · cases h
          exact hc
      · cases h
        exact hc

/-- Fuel-irrelevance / termination of the level recursion: once the fuel
covers the remaining depth (`(lvl + 2).toNat` levels from `lvl` down to
`-1`), the result does not depend on it and is always `some`. -/
theorem insertEmbeddingF_fuel_irrel (simf : List Rat → List Rat → Rat)
    (getdb : String → VectorHash → Option VectorTreeNode) (store : VectorStoreM) :
    ∀ (m : Nat) (lvl : Int), -1 ≤ lvl → (lvl + 2).toNat = m →
      ∀ f g : Nat, m ≤ f → m ≤ g →
        ∀ (c : Cache) (emb : VectorEmbedding) (entry : VectorHash) (mil : Int),
          insertEmbeddingF simf getdb store f c emb entry lvl mil =
            insertEmbeddingF simf getdb store g c emb entry lvl mil ∧
          (insertEmbeddingF simf getdb store f c emb entry lvl mil).isSome = true := by
  intro m
  induction m with
  | zero =>
    intro lvl hlvl hm f g hf hg c emb entry mil
    exact absurd hm (by omega)
  | succ m ihm =>
    intro lvl hlvl hm f g hf hg c emb entry mil
    obtain ⟨f, rfl⟩ : ∃ x, f = x + 1 := ⟨f - 1, by omega⟩
    obtain ⟨g, rfl⟩ : ∃ x, g = x + 1 := ⟨g - 1, by omega⟩
    by_cases h1 : lvl = -1
    · subst h1
      simp [insertEmbeddingF]
    · have hrec : ∀ entry2 : VectorHash,
          insertEmbeddingF simf getdb store f c emb entry2 (lvl - 1) mil =
            insertEmbeddingF simf getdb store g c emb entry2 (lvl - 1) mil ∧
          (insertEmbeddingF simf getdb store f c emb entry2 (lvl - 1) mil).isSome
            = true :=
        fun entry2 =>
          ihm (lvl - 1) (by omega) (by omega) f g (by omega) (by omega) c emb entry2 mil
      simp only [insertEmbeddingF]
      rw [if_neg h1, if_neg h1]
      constructor
      · split
        · rw [(hrec _).1]
        · rfl
        · rfl
      · split
        · rename_i vthm mv x
          rw [(hrec _).1]
          cases hrg : insertEmbeddingF simf getdb store g c emb
              ((candidateList simf c vthm emb entry lvl).headD ([], 0)).1
              (lvl - 1) mil with
          | none =>
            have h2 :=
              (hrec ((candidateList simf c vthm emb entry lvl).headD ([], 0)).1).2
            rw [(hrec ((candidateList simf c vthm emb entry lvl).headD ([], 0)).1).1,
              hrg] at h2
            simp at h2
          | some c1 =>
            simp [apply_ite]
        · split
          · cases hg2 : getdb store.database_name entry <;> simp
          · simp
        · simp

/-- At `hops = 4` the traversal stops recursing: every id it returns is
an immediate neighbor. -/
theorem traverseNbrs_hops_capped (simf : List Rat → List Rat → Rat) (c : Cache)
    (fvec : List Rat) (hs : VectorHash) (lvl : Int) :
    ∀ (nbrs : List NeighborEntry) (hops : Int) (skipm : List VectorHash),
      4 ≤ hops →
      ∀ p ∈ (traverseNbrs simf c fvec hs lvl nbrs hops skipm).1,
        p.1 ∈ nbrs.map Prod.fst := by
  intro nbrs
  induction nbrs with
  | nil =>
    intro hops skipm hhops p hp
    simp [traverseNbrs] at hp
  | cons q rest ih =>
    obtain ⟨nb, w⟩ := q
    intro hops skipm hhops p hp
    simp only [traverseNbrs] at hp
    split at hp
    · exact List.mem_cons_of_mem _ (ih hops skipm hhops p hp)
    · split at hp
      · exact List.mem_cons_of_mem _ (ih hops skipm hhops p hp)
      · split at hp
        · split at hp
          · rename_i hlt
            exact absurd hlt (by omega)
          · simp only [List.mem_cons] at hp
            rcases hp with rfl | hp
            · simp
            · exact List.mem_cons_of_mem _ (ih hops _ hhops p hp)
        · exact List.mem_cons_of_mem _ (ih hops _ hhops p hp)

/-! ## Claim C9 — termination of `insert_embedding` -/

/-- **C9.**  (i) A call at `cur_level = -1` returns at once with the
cache untouched; (ii) the level recursion, which descends by exactly one
level per self-call, terminates for every starting level ≥ −1: fuel
`(cur_level + 2).toNat` — the number of levels down to −1 — already
yields the final result, and any larger fuel returns the same `some`
cache; (iii) each inner traversal stops fanning out once `hops` reaches
4: at `hops ≥ 4` it returns only immediate neighbors. -/
theorem insert_embedding_terminates :
    (∀ (simf : List Rat → List Rat → Rat)
      (getdb : String → VectorHash → Option VectorTreeNode)
      (store : VectorStoreM) (fuel : Nat) (c : Cache) (emb : VectorEmbedding)
      (entry : VectorHash) (mil : Int),
      1 ≤ fuel →
      insertEmbeddingF simf getdb store fuel c emb entry (-1) mil = some c) ∧
    (∀ (simf : List Rat → List Rat → Rat)
      (getdb : String → VectorHash → Option VectorTreeNode)
      (store : VectorStoreM) (c : Cache) (emb : VectorEmbedding)
      (entry : VectorHash) (lvl mil : Int),
      -1 ≤ lvl →
      ∀ fuel : Nat, (lvl + 2).toNat ≤ fuel →
        insertEmbeddingF simf getdb store fuel c emb entry lvl mil =
          insertEmbeddingF simf getdb store ((lvl + 2).toNat) c emb entry lvl mil ∧
        (insertEmbeddingF simf getdb store fuel c emb entry lvl mil).isSome
          = true) ∧
    (∀ (simf : List Rat → List Rat → Rat) (c : Cache) (fvec : List Rat)
      (hs : VectorHash) (lvl : Int) (nbrs : List NeighborEntry) (hops : Int)
      (skipm : List VectorHash),
      4 ≤ hops →
      ∀ p ∈ (traverseNbrs simf c fvec hs lvl nbrs hops skipm).1,
        p.1 ∈ nbrs.map Prod.fst) := by
  refine ⟨?_, ?_, ?_⟩
  · intro simf getdb store fuel c emb entry mil hfuel
    obtain ⟨x, rfl⟩ : ∃ x, fuel = x + 1 := ⟨fuel - 1, by omega⟩
    rw [insertEmbeddingF]
    simp
  · intro simf getdb store c emb entry lvl mil hlvl fuel hfuel
    exact insertEmbeddingF_fuel_irrel simf getdb store ((lvl + 2).toNat) lvl hlvl
      rfl fuel ((lvl + 2).toNat) hfuel le_rfl c emb entry mil
  · intro simf c fvec hs lvl nbrs hops skipm hhops
    exact traverseNbrs_hops_capped simf c fvec hs lvl nbrs hops skipm hhops

/-- Witness for C9: with an empty cache, a similarity kernel returning 0
and a database stub returning nothing, the level-(-1) call with fuel 1
returns the cache unchanged. -/
theorem insert_embedding_terminates_witness :
    insertEmbeddingF (fun _ _ => 0) (fun _ _ => none) ⟨0, ""⟩ 1
      (fun _ => none) ⟨[], []⟩ [] (-1) 0 = some (fun _ => none) :=
  insert_embedding_terminates.1 (fun _ _ => 0) (fun _ _ => none) ⟨0, ""⟩ 1
    (fun _ => none) ⟨[], []⟩ [] 0 (by norm_num)

/-! ## Claim C2 — amended shape invariant -/

/-- **C2, amended** (strict descent weakened to non-increasing).  The
`alter` closure's output is descending-with-ties, duplicate-free by id
and of length ≤ M = 2 for *every* prior neighbor list and appended pair;
`insert_node_create_edges` preserves the cache-wide shape invariant
whenever its candidate list is shape-correct (as the candidate sets
`insert_embedding` passes it always are); and every `insert_embedding`
that returns preserves the cache-wide shape invariant. -/
theorem neighbor_shape_invariant :
    (∀ (old : List NeighborEntry) (hs : VectorHash) (cs : Rat),
      NbrOk (updatedNeighbors old hs cs)) ∧
    (∀ (c : Cache) (fvec : List Rat) (hs : VectorHash)
      (nbs : List NeighborEntry) (lvl : Int),
      CacheInv c → NbrOk nbs →
      CacheInv (insert_node_create_edges c fvec hs nbs lvl)) ∧
    (∀ (simf : List Rat → List Rat → Rat)
      (getdb : String → VectorHash → Option VectorTreeNode)
      (store : VectorStoreM) (fuel : Nat) (c : Cache) (emb : VectorEmbedding)
      (entry : VectorHash) (lvl mil : Int) (cf : Cache),
      CacheInv c →
      insertEmbeddingF simf getdb store fuel c emb entry lvl mil = some cf →
      CacheInv cf) :=
  ⟨NbrOk_updatedNeighbors,
    fun c fvec hs nbs lvl hc hn =>
      CacheInv_insert_node_create_edges c fvec hs nbs lvl hc hn,
    fun simf getdb store fuel c emb entry lvl mil cf hc h =>
      CacheInv_insertEmbeddingF simf getdb store fuel c emb entry lvl mil cf hc h⟩

/-- Witness for C2 (amended): creating a node with one shape-correct
candidate in an empty cache yields a cache satisfying the invariant. -/
theorem neighbor_shape_invariant_witness :
    CacheInv (insert_node_create_edges (fun _ => none) [] [0] [([1], 1)] 0) :=
  neighbor_shape_invariant.2.1 (fun _ => none) [] [0] [([1], 1)] 0
    (fun _ _ _ h => by cases h) (NbrOk_singleton _)

/-! ## Claim C8 — the neighbor update is frame-exact -/

/-- **C8.**  The atomic per-candidate update of
`insert_node_create_edges` changes nothing but the target node's
neighbor list: every other key is untouched; an absent key stays absent;
an entry holding `None` is returned unchanged; and an entry holding a
node is replaced by a node with the same `vector_list` payload and the
same guard token, its neighbors updated through the closure. -/
theorem alter_frame (c : Cache) (lvl : Int) (nb hs : VectorHash) (cs : Rat) :
    (∀ k, k ≠ (lvl, nb) →
      dashAlter c (lvl, nb) (neighborAlterFn hs cs) k = c k) ∧
    (c (lvl, nb) = none →
      dashAlter c (lvl, nb) (neighborAlterFn hs cs) (lvl, nb) = none) ∧
    (c (lvl, nb) = some none →
      dashAlter c (lvl, nb) (neighborAlterFn hs cs) (lvl, nb) = some none) ∧
    (∀ (n : VectorTreeNode) (g : Nat), c (lvl, nb) = some (some (n, g)) →
      dashAlter c (lvl, nb) (neighborAlterFn hs cs) (lvl, nb) =
        some (some (⟨n.vector_list, updatedNeighbors n.neighbors hs cs⟩, g))) := by
  refine ⟨?_, ?_, ?_, ?_⟩
  · intro k hk
    simp [dashAlter, hk]
  · intro h
    simp [dashAlter, h]
  · intro h
    simp [dashAlter, h, neighborAlterFn]
  · intro n g h
    simp [dashAlter, h, neighborAlterFn]

/-- Witness for C8: a concrete single-entry cache; the guard token 7 and
the empty payload survive the update. -/
theorem alter_frame_witness :
    dashAlter
        (fun k => if k = ((0 : Int), ([0] : VectorHash))
          then some (some (⟨[], [([1], 1)]⟩, 7)) else none)
        (0, [0]) (neighborAlterFn [2] 1) (0, [0]) =
      some (some (⟨[], updatedNeighbors [([1], 1)] [2] 1⟩, 7)) :=
  (alter_frame _ 0 [0] [2] 1).2.2.2 ⟨[], [([1], 1)]⟩ 7 (by simp)

end Cosdata
